import Mathlib

/-!
Verification development for the `remove_images` tool
(`src/remove_images.py`).

The tool scans documentation trees for Markdown/HTML media references and
relocates unreferenced files of the `images` directory into an `archive`
subdirectory.  We give a shallow embedding of the program:

* the two regular expressions of `extract_media_references` are embedded as
  backtracking matchers over `List Char` that reproduce the semantics of
  Python `re.findall` for these concrete patterns (leftmost scan,
  non-overlapping matches, lazy `.*?` with backtracking, `.` not matching
  a newline);
* the filesystem state touched by `process_directory` and `main` is
  embedded as explicit data (`EnDir`, `World`): a directory is its set of
  entry names, a document is its text, and `os.listdir` failure on a
  missing directory is an `Except.error`.
-/

namespace RemoveImages

/-- The newline character; Python regex `.` matches any character except
this one (no DOTALL flag is used in the source). -/
def newlineChar : Char := Char.ofNat 10

/-- The single-quote character (written via its code point). -/
def squote : Char := Char.ofNat 39

/-- A character accepted by the regex character classes `["\x27]` /
`[\x27"]` used around the `src` attribute value. -/
def isQuote (c : Char) : Prop := c = '"' ∨ c = squote

instance (c : Char) : Decidable (isQuote c) := by
  unfold isQuote; infer_instance

/-- The literal `images/` that both patterns require before the capture. -/
def imagesChars : List Char := 'i' :: 'm' :: 'a' :: 'g' :: 'e' :: 's' :: '/' :: []

/-- The literal `](images/` separating the alt text from the capture in the
Markdown pattern. -/
def mdClose : List Char := ']' :: '(' :: imagesChars

/-- Matcher for the tail `(.*?)\x29` of the Markdown pattern: lazily capture
non-newline characters up to the first closing parenthesis; returns the
capture and the remainder after the parenthesis. -/
def capToParen : List Char → Option (List Char × List Char)
  | [] => none
  | c :: cs =>
    if c = ')' then some ([], cs)
    else if c = newlineChar then none
    else
      match capToParen cs with
      | some (cap, rest) => some (c :: cap, rest)
      | none => none

/-- Matcher for `.*?\]\(images/(.*?)\x29` (the Markdown pattern after the
leading `![`): lazily scan non-newline characters for the literal
`](images/`; at each occurrence try the capture, backtracking to a later
occurrence when it fails. -/
def mdAfterBang : List Char → Option (List Char × List Char)
  | [] => none
  | c :: cs =>
    if mdClose.isPrefixOf (c :: cs) then
      match capToParen ((c :: cs).drop 9) with
      | some r => some r
      | none => if c = newlineChar then none else mdAfterBang cs
    else if c = newlineChar then none else mdAfterBang cs

/-- Attempt of the whole Markdown pattern `!\[.*?\]\(images/(.*?)\x29` at the
head of the input: the literal `![`, then the scanning tail. -/
def mdMatchAt : List Char → Option (List Char × List Char)
  | [] => none
  | _ :: [] => none
  | a :: b :: t => if a = '!' ∧ b = '[' then mdAfterBang t else none

/-- Matcher for the trailing `.*?>` of the HTML pattern: lazily scan
non-newline characters for the first `>`; returns the remainder after it. -/
def skipToGt : List Char → Option (List Char)
  | [] => none
  | c :: cs =>
    if c = '>' then some cs
    else if c = newlineChar then none
    else skipToGt cs

/-- Matcher for the tail `(.*?)[\x27"].*?>` of the HTML pattern: lazily
capture non-newline characters up to a quote character (of either kind)
after which a `>` is reachable without crossing a newline, backtracking
past quote characters that do not lead to a `>`. -/
def capToQuote : List Char → Option (List Char × List Char)
  | [] => none
  | c :: cs =>
    if isQuote c then
      match skipToGt cs with
      | some rest => some ([], rest)
      | none =>
        if c = newlineChar then none
        else
          match capToQuote cs with
          | some (cap, rest) => some (c :: cap, rest)
          | none => none
    else if c = newlineChar then none
    else
      match capToQuote cs with
      | some (cap, rest) => some (c :: cap, rest)
      | none => none

/-- Attempt of the literal `src=` followed by a quote and `images/` at the
head of the input; returns the remainder after `images/`. -/
def srcAt : List Char → Option (List Char)
  | [] => none
  | _ :: [] => none
  | _ :: _ :: [] => none
  | _ :: _ :: _ :: [] => none
  | _ :: _ :: _ :: _ :: [] => none
  | c1 :: c2 :: c3 :: c4 :: q :: rest =>
    if c1 = 's' ∧ c2 = 'r' ∧ c3 = 'c' ∧ c4 = '=' ∧ isQuote q then
      if imagesChars.isPrefixOf rest then some (rest.drop 7) else none
    else none

/-- Matcher for `.*?src=["\x27]images/(.*?)[\x27"].*?>` (the HTML pattern
after the tag literal): lazily scan non-newline characters for the `src`
attribute, backtracking to a later occurrence when the tail fails. -/
def htmlAfterTag : List Char → Option (List Char × List Char)
  | [] => none
  | c :: cs =>
    match srcAt (c :: cs) with
    | some u =>
      match capToQuote u with
      | some r => some r
      | none => if c = newlineChar then none else htmlAfterTag cs
    | none => if c = newlineChar then none else htmlAfterTag cs

/-- The four tag literals of the alternation `(?:<img|<video|<audio|<source)`. -/
def tagImg : List Char := '<' :: 'i' :: 'm' :: 'g' :: []

/-- Tag literal `<video`. -/
def tagVideo : List Char := '<' :: 'v' :: 'i' :: 'd' :: 'e' :: 'o' :: []

/-- Tag literal `<audio`. -/
def tagAudio : List Char := '<' :: 'a' :: 'u' :: 'd' :: 'i' :: 'o' :: []

/-- Tag literal `<source`. -/
def tagSource : List Char := '<' :: 's' :: 'o' :: 'u' :: 'r' :: 'c' :: 'e' :: []

/-- Attempt of the whole HTML pattern at the head of the input: one of the
four tag literals, then the `src` attribute scan. -/
def htmlMatchAt (s : List Char) : Option (List Char × List Char) :=
  if tagImg.isPrefixOf s then htmlAfterTag (s.drop 4)
  else if tagVideo.isPrefixOf s then htmlAfterTag (s.drop 6)
  else if tagAudio.isPrefixOf s then htmlAfterTag (s.drop 6)
  else if tagSource.isPrefixOf s then htmlAfterTag (s.drop 7)
  else none

/-- Fueled engine for `re.findall`: scan left to right, at each position try
the pattern; on success emit the capture and continue after the match
(non-overlapping), otherwise advance one character.  One unit of fuel is
spent per character position, so fuel equal to the length of the input
is always sufficient (every step strictly shrinks the input). -/
def findAllF (matchAt : List Char → Option (List Char × List Char)) :
    Nat → List Char → List (List Char)
  | 0, _ => []
  | _ + 1, [] => []
  | fuel + 1, c :: cs =>
    match matchAt (c :: cs) with
    | some (cap, rest) => cap :: findAllF matchAt fuel rest
    | none => findAllF matchAt fuel cs

/-- `re.findall` of a pattern over an input, with sufficient fuel. -/
def findAll (matchAt : List Char → Option (List Char × List Char))
    (s : List Char) : List (List Char) :=
  findAllF matchAt s.length s

/-- Embedding of `extract_media_references` (source lines 21-39): the
captures of the two `re.findall` calls, combined and deduplicated as a
set. -/
def extract_media_references (md_content : String) : Finset String :=
  ((findAll mdMatchAt md_content.toList ++
    findAll htmlMatchAt md_content.toList).map String.mk).toFinset

/-- The fixed allow-list of always-kept names of `get_all_files`. -/
def keepList : Finset String := {".keep", "banner.png"}

/-- Embedding of `get_all_files` (source lines 9-18): list the entries of
the media directory, excluding the allow-list.  `os.listdir` raises when
the directory does not exist, embedded as `Except.error`. -/
def get_all_files (media : Option (Finset String)) : Except Unit (Finset String) :=
  match media with
  | none => Except.error ()
  | some entries => Except.ok (entries.filter (fun f => f ∉ keepList))

/-- Embedding of the reference-accumulation loop of `process_directory`
(source lines 60-66): union of the extracted references over the text of
every `.md` document of the subtree. -/
def referencedFiles (docs : List String) : Finset String :=
  docs.foldl (fun acc content => acc ∪ extract_media_references content) ∅

/-- Embedding of source line 70: the unreferenced set. -/
def unreferenced_files (all_files referenced : Finset String) : Finset String :=
  (all_files \ referenced) \ {"archive"}

/-- State of one `en` directory: the entry names of its `images`
subdirectory (`none` when `images` does not exist; the name `archive` is
an entry like any other), the entry names of `images/archive`, and the
text of the `.md` documents of the whole subtree. -/
structure EnDir where
  media : Option (Finset String)
  archiveEntries : Finset String
  docs : List String
deriving DecidableEq

/-- Embedding of source lines 52-53: `os.makedirs(archive_dir)` when
`archive_dir` does not exist.  `os.makedirs` creates missing parents, so a
missing `images` directory is created as well; a freshly created archive
directory is empty. -/
def ensureArchive (d : EnDir) : EnDir :=
  match d.media with
  | none => { d with media := some {"archive"}, archiveEntries := ∅ }
  | some entries =>
    if "archive" ∈ entries then d
    else { d with media := some (insert "archive" entries), archiveEntries := ∅ }

/-- Result of one `process_directory` run: the final directory state and
the set of file names moved into the archive (the report of source line 79
is its cardinality). -/
structure RunResult where
  dir : EnDir
  moved : Finset String
deriving DecidableEq

/-- Embedding of `process_directory` (source lines 42-79): ensure the
archive directory, list the media directory, accumulate references over
the documents, compute the unreferenced set and rename each of its
members from `images` into `images/archive`. -/
def process_directory (d : EnDir) : Except Unit RunResult :=
  let d1 := ensureArchive d
  match get_all_files d1.media with
  | Except.error e => Except.error e
  | Except.ok all_files =>
    let referenced := referencedFiles d1.docs
    let unref := unreferenced_files all_files referenced
    Except.ok
      { dir :=
          { d1 with
            media := d1.media.map (fun es => es \ unref),
            archiveEntries := d1.archiveEntries ∪ unref },
        moved := unref }

/-- State of the whole run of `main` (source lines 82-103): whether the
root path exists, and the states of the `en` directories found under it
(in walk order). -/
instance {ε α : Type} [DecidableEq ε] [DecidableEq α] :
    DecidableEq (Except ε α) := fun a b =>
  match a, b with
  | Except.error e, Except.error e2 =>
    if h : e = e2 then isTrue (by rw [h]) else isFalse (by simp [h])
  | Except.ok r, Except.ok r2 =>
    if h : r = r2 then isTrue (by rw [h]) else isFalse (by simp [h])
  | Except.error _, Except.ok _ => isFalse (by simp)
  | Except.ok _, Except.error _ => isFalse (by simp)

structure World where
  rootExists : Bool
  enDirs : List EnDir
deriving DecidableEq

/-- Sequential processing of the located `en` directories (source lines
94-98); an uncaught exception aborts the whole run. -/
def processList : List EnDir → Except Unit (List RunResult)
  | [] => Except.ok []
  | d :: ds =>
    match process_directory d with
    | Except.error e => Except.error e
    | Except.ok r =>
      match processList ds with
      | Except.error e => Except.error e
      | Except.ok rs => Except.ok (r :: rs)

/-- Embedding of `main` (source lines 82-103): a missing root path exits
with status 1 and mutates nothing; otherwise every located `en` directory
is processed and the program exits 0 (an uncaught exception would exit
nonzero with the tree as reached, but processing never raises once the
archive directory has been created).  Returns the exit status and the
final states of the `en` directories. -/
def mainRun (w : World) : Nat × List EnDir :=
  if w.rootExists then
    match processList w.enDirs with
    | Except.ok rs => (0, rs.map RunResult.dir)
    | Except.error _ => (1, w.enDirs)
  else (1, w.enDirs)

/-- The unreferenced set computed by `process_directory` from the raw
listing `es` of the media directory and the documents `docs`. -/
def unrefOf (es : Finset String) (docs : List String) : Finset String :=
  unreferenced_files (es.filter (fun f => f ∉ keepList)) (referencedFiles docs)

/-- The name occurs in the text immediately after a literal `images/`. -/
def OccursAfterImages (text name : String) : Prop :=
  ∃ l r, text.toList = l ++ (imagesChars ++ (name.toList ++ r))

end RemoveImages

namespace RemoveImages

theorem ensureArchive_docs (d : EnDir) : (ensureArchive d).docs = d.docs := by
  unfold ensureArchive
  cases d.media with
  | none => rfl
  | some entries =>
    by_cases h : "archive" ∈ entries <;> simp [h]

theorem ensureArchive_archiveMem (d : EnDir) :
    ∃ es, (ensureArchive d).media = some es ∧ "archive" ∈ es := by
  unfold ensureArchive
  cases hm : d.media with
  | none => exact ⟨{"archive"}, rfl, by simp⟩
  | some entries =>
    by_cases h : "archive" ∈ entries
    · exact ⟨entries, by simp [h, hm], h⟩
    · exact ⟨insert "archive" entries, by simp [h], by simp⟩

theorem ensureArchive_of_archiveMem (d : EnDir) (es : Finset String)
    (h : d.media = some es) (ha : "archive" ∈ es) : ensureArchive d = d := by
  unfold ensureArchive
  rw [h]
  simp [ha]

theorem process_directory_eq (d : EnDir) (es : Finset String)
    (h : (ensureArchive d).media = some es) :
    process_directory d =
      Except.ok
        ⟨⟨some (es \ unrefOf es d.docs),
          (ensureArchive d).archiveEntries ∪ unrefOf es d.docs, d.docs⟩,
          unrefOf es d.docs⟩ := by
  simp only [process_directory, h, get_all_files, Option.map, unrefOf,
    ensureArchive_docs]

theorem archive_not_mem_unrefOf (es : Finset String) (docs : List String) :
    "archive" ∉ unrefOf es docs := by
  simp [unrefOf, unreferenced_files]

theorem mem_unrefOf (f : String) (es : Finset String) (docs : List String) :
    f ∈ unrefOf es docs ↔
      f ∈ es ∧ f ∉ keepList ∧ f ∉ referencedFiles docs ∧ f ≠ "archive" := by
  simp [unrefOf, unreferenced_files, Finset.mem_sdiff, Finset.mem_filter,
    and_assoc]

theorem unrefOf_sdiff_self (es : Finset String) (docs : List String) :
    unrefOf (es \ unrefOf es docs) docs = ∅ := by
  ext f
  simp only [mem_unrefOf, Finset.mem_sdiff, Finset.not_mem_empty, iff_false]
  tauto

theorem process_directory_fixpoint (e : EnDir) (es : Finset String)
    (hm : e.media = some es) (ha : "archive" ∈ es)
    (hu : unrefOf es e.docs = ∅) :
    process_directory e = Except.ok ⟨e, ∅⟩ := by
  obtain ⟨m, a, ds⟩ := e
  have h1 : ensureArchive ⟨m, a, ds⟩ = ⟨m, a, ds⟩ :=
    ensureArchive_of_archiveMem _ es hm ha
  have h2 := process_directory_eq ⟨m, a, ds⟩ es (by rw [h1]; exact hm)
  rw [h2, hu, h1]
  have hm2 : m = some es := hm
  subst hm2
  simp

/-- C1 (counterexample): on an `en` directory whose `images` subfolder does
not exist, processing does not abort: `os.makedirs` creates the missing
`images` directory as the parent of `archive`, the listing then succeeds,
and the run completes having moved nothing, with `images` containing
exactly the `archive` entry. -/
theorem C1_counterexample :
    process_directory ⟨none, ∅, []⟩ =
      Except.ok ⟨⟨some {"archive"}, ∅, []⟩, ∅⟩ := by decide

/-- C1 (amended): if an `en` directory exists but its `images` subfolder
does not, `os.makedirs` creates the `images` directory together with its
`archive` child, listing the media directory succeeds, and processing of
that directory completes with zero files moved. -/
theorem C1_amended_missing_images_created (d : EnDir) (h : d.media = none) :
    process_directory d = Except.ok ⟨⟨some {"archive"}, ∅, d.docs⟩, ∅⟩ := by
  have h1 : ensureArchive d = ⟨some {"archive"}, ∅, d.docs⟩ := by
    unfold ensureArchive; rw [h]
  have h2 := process_directory_eq d {"archive"} (by rw [h1])
  have h3 : unrefOf {"archive"} d.docs = ∅ := by
    ext f
    simp only [mem_unrefOf, Finset.mem_singleton, Finset.not_mem_empty,
      iff_false]
    rintro ⟨rfl, -, -, hne⟩
    exact hne rfl
  rw [h2, h1, h3]
  simp

/-- C1 (witness for the amended theorem at a concrete input). -/
theorem C1_amended_witness :
    process_directory ⟨none, {"junk"}, ["![x](images/a.png)"]⟩ =
      Except.ok ⟨⟨some {"archive"}, ∅, ["![x](images/a.png)"]⟩, ∅⟩ :=
  C1_amended_missing_images_created ⟨none, {"junk"}, ["![x](images/a.png)"]⟩ rfl

/-- C4: every file moved by a run of `process_directory` was present in the
inventory computed by `get_all_files` on the media directory, and absent
from the union of extracted references, at the moment the unreferenced set
was computed. -/
theorem C4_moved_in_inventory_not_referenced (d : EnDir) (r : RunResult)
    (A : Finset String)
    (h : process_directory d = Except.ok r)
    (hA : get_all_files (ensureArchive d).media = Except.ok A) :
    r.moved ⊆ A ∧ Disjoint r.moved (referencedFiles d.docs) := by
  obtain ⟨es, hes, -⟩ := ensureArchive_archiveMem d
  rw [process_directory_eq d es hes] at h
  rw [hes] at hA
  have hA2 : A = es.filter (fun f => f ∉ keepList) := by
    simpa [get_all_files] using hA.symm
  subst hA2
  injection h with h2
  subst h2
  constructor
  · intro f hf
    have hf2 := (mem_unrefOf f es d.docs).mp hf
    exact Finset.mem_filter.mpr ⟨hf2.1, hf2.2.1⟩
  · rw [Finset.disjoint_left]
    intro f hf hR
    exact ((mem_unrefOf f es d.docs).mp hf).2.2.1 hR

/-- C4 (witness at a concrete input). -/
theorem C4_witness :
    ({"b.png"} : Finset String) ⊆ {"archive", "a.png", "b.png"} ∧
      Disjoint ({"b.png"} : Finset String)
        (referencedFiles ["![x](images/a.png)"]) :=
  C4_moved_in_inventory_not_referenced
    ⟨some {"a.png", "b.png"}, ∅, ["![x](images/a.png)"]⟩
    ⟨⟨some {"archive", "a.png"}, {"b.png"}, ["![x](images/a.png)"]⟩, {"b.png"}⟩
    {"archive", "a.png", "b.png"} (by decide) (by decide)

/-- C5: the unreferenced set equals the inventory minus the union of
references minus the singleton set holding the archive folder name, so the
name `archive` is never classified as unreferenced and is never among the
moved files of any run. -/
theorem C5_archive_never_unreferenced :
    (∀ all_files referenced : Finset String,
      unreferenced_files all_files referenced =
        (all_files \ referenced) \ {"archive"} ∧
      "archive" ∉ unreferenced_files all_files referenced) ∧
    ∀ d r, process_directory d = Except.ok r → "archive" ∉ r.moved := by
  constructor
  · intro A R
    exact ⟨rfl, by simp [unreferenced_files]⟩
  · intro d r h
    obtain ⟨es, hes, -⟩ := ensureArchive_archiveMem d
    rw [process_directory_eq d es hes] at h
    injection h with h2
    subst h2
    exact archive_not_mem_unrefOf es d.docs

/-- C5 (witness at a concrete input). -/
theorem C5_witness : "archive" ∉ ({"b.png"} : Finset String) :=
  C5_archive_never_unreferenced.2
    ⟨some {"a.png", "b.png"}, ∅, ["![x](images/a.png)"]⟩
    ⟨⟨some {"archive", "a.png"}, {"b.png"}, ["![x](images/a.png)"]⟩, {"b.png"}⟩
    (by decide)

/-- C6: a second run of `process_directory` on the state produced by a
first run (no intervening edits) finds an empty unreferenced set and moves
zero files, leaving the state unchanged. -/
theorem C6_second_run_moves_nothing (d : EnDir) (r : RunResult)
    (h : process_directory d = Except.ok r) :
    process_directory r.dir = Except.ok ⟨r.dir, ∅⟩ := by
  obtain ⟨es, hes, harch⟩ := ensureArchive_archiveMem d
  rw [process_directory_eq d es hes] at h
  injection h with h2
  subst h2
  exact process_directory_fixpoint _ (es \ unrefOf es d.docs) rfl
    (Finset.mem_sdiff.mpr ⟨harch, archive_not_mem_unrefOf es d.docs⟩)
    (unrefOf_sdiff_self es d.docs)

/-- C6 (witness at a concrete input). -/
theorem C6_witness :
    process_directory
      ⟨some {"archive", "a.png"}, {"b.png"}, ["![x](images/a.png)"]⟩ =
      Except.ok
        ⟨⟨some {"archive", "a.png"}, {"b.png"}, ["![x](images/a.png)"]⟩, ∅⟩ :=
  C6_second_run_moves_nothing
    ⟨some {"a.png", "b.png"}, ∅, ["![x](images/a.png)"]⟩
    ⟨⟨some {"archive", "a.png"}, {"b.png"}, ["![x](images/a.png)"]⟩, {"b.png"}⟩
    (by decide)

/-- C8: the Inventory Builder returns the entry names of the media
directory minus the allow-list; the result never contains `.keep` or
`banner.png` even when those entries are physically present. -/
theorem C8_inventory_excludes_allowlist (es A : Finset String)
    (h : get_all_files (some es) = Except.ok A) :
    A = es \ keepList ∧ ".keep" ∉ A ∧ "banner.png" ∉ A := by
  have hA : A = es.filter (fun f => f ∉ keepList) := by
    simpa [get_all_files] using h.symm
  subst hA
  refine ⟨?_, ?_, ?_⟩
  · ext f
    simp [Finset.mem_sdiff, Finset.mem_filter]
  · simp [Finset.mem_filter, keepList]
  · simp [Finset.mem_filter, keepList]

/-- C8 (witness at a concrete input where both allow-list files are
present). -/
theorem C8_witness :
    ({"x.png"} : Finset String) = {".keep", "banner.png", "x.png"} \ keepList ∧
      ".keep" ∉ ({"x.png"} : Finset String) ∧
      "banner.png" ∉ ({"x.png"} : Finset String) :=
  C8_inventory_excludes_allowlist {".keep", "banner.png", "x.png"} {"x.png"}
    (by decide)

/-- C9: when the supplied root path does not exist, the program exits with
status code 1 and the states of the directories under the root are
unchanged (no filesystem mutation). -/
theorem C9_missing_root_exits_one (w : World) (h : w.rootExists = false) :
    mainRun w = (1, w.enDirs) := by
  simp [mainRun, h]

/-- C9 (witness at a concrete input). -/
theorem C9_witness :
    mainRun ⟨false, [⟨some {"a.png"}, ∅, []⟩]⟩ =
      (1, [⟨some {"a.png"}, ∅, []⟩]) :=
  C9_missing_root_exits_one ⟨false, [⟨some {"a.png"}, ∅, []⟩]⟩ rfl

/-- C10: any entry of the media directory other than `archive` and the
allow-list names — the embedding lists entries of every kind, files and
subdirectories alike, by name — is moved into the archive whenever no
document references its exact name: after the run it is among the moved
names, present in the archive and absent from the media directory. -/
theorem C10_unreferenced_entry_archived (d : EnDir) (es : Finset String)
    (r : RunResult) (f : String)
    (hm : (ensureArchive d).media = some es)
    (h : process_directory d = Except.ok r)
    (hf : f ∈ es) (hk : f ∉ keepList) (ha : f ≠ "archive")
    (hr : f ∉ referencedFiles d.docs) :
    f ∈ r.moved ∧ f ∈ r.dir.archiveEntries ∧ f ∉ r.dir.media.getD ∅ := by
  rw [process_directory_eq d es hm] at h
  injection h with h2
  subst h2
  have hmem : f ∈ unrefOf es d.docs :=
    (mem_unrefOf f es d.docs).mpr ⟨hf, hk, hr, ha⟩
  refine ⟨hmem, Finset.mem_union_right _ hmem, ?_⟩
  exact fun hc => (Finset.mem_sdiff.mp hc).2 hmem

/-- C10 (witness at a concrete input whose unreferenced entry is a
directory-style name). -/
theorem C10_witness :
    "sub" ∈ ({"sub"} : Finset String) ∧
      "sub" ∈ ({"sub"} : Finset String) ∧
      "sub" ∉ ({"archive"} : Finset String) :=
  C10_unreferenced_entry_archived ⟨some {"archive", "sub"}, ∅, []⟩
    {"archive", "sub"} ⟨⟨some {"archive"}, {"sub"}, []⟩, {"sub"}⟩ "sub"
    (by decide) (by decide) (by decide) (by decide) (by decide) (by decide)

theorem isPrefixOf_append_left (l t : List Char) :
    l.isPrefixOf (l ++ t) = true := by
  induction l with
  | nil => simp [List.isPrefixOf]
  | cons a l ih => simp [List.isPrefixOf, ih]

theorem eq_append_drop_of_isPrefixOf (l : List Char) :
    ∀ s : List Char, l.isPrefixOf s = true → s = l ++ s.drop l.length := by
  induction l with
  | nil => intro s _; simp
  | cons a l ih =>
    intro s h
    cases s with
    | nil => simp [List.isPrefixOf] at h
    | cons b s =>
      simp only [List.isPrefixOf, Bool.and_eq_true, beq_iff_eq] at h
      obtain ⟨rfl, h2⟩ := h
      simpa using ih s h2

theorem capToParen_decomp :
    ∀ u cap rest : List Char, capToParen u = some (cap, rest) →
      u = cap ++ ')' :: rest := by
  intro u
  induction u with
  | nil => intro cap rest h; simp [capToParen] at h
  | cons c cs ih =>
    intro cap rest h
    simp only [capToParen] at h
    by_cases h1 : c = ')'
    · rw [if_pos h1] at h
      simp only [Option.some.injEq, Prod.mk.injEq] at h
      obtain ⟨rfl, rfl⟩ := h
      rw [h1]
      rfl
    · rw [if_neg h1] at h
      by_cases h2 : c = newlineChar
      · rw [if_pos h2] at h; exact Option.noConfusion h
      · rw [if_neg h2] at h
        cases hc : capToParen cs with
        | none => rw [hc] at h; exact Option.noConfusion h
        | some pr =>
          obtain ⟨cap0, rest0⟩ := pr
          rw [hc] at h
          simp only [Option.some.injEq, Prod.mk.injEq] at h
          obtain ⟨rfl, rfl⟩ := h
          rw [ih cap0 rest0 hc]
          rfl

theorem mdAfterBang_decomp :
    ∀ t cap rest : List Char, mdAfterBang t = some (cap, rest) →
      ∃ p, t = p ++ (imagesChars ++ (cap ++ ')' :: rest)) := by
  intro t
  induction t with
  | nil => intro cap rest h; simp [mdAfterBang] at h
  | cons c cs ih =>
    intro cap rest h
    simp only [mdAfterBang] at h
    by_cases h1 : mdClose.isPrefixOf (c :: cs) = true
    · rw [if_pos h1] at h
      cases hc : capToParen ((c :: cs).drop 9) with
      | some pr =>
        obtain ⟨cap0, rest0⟩ := pr
        rw [hc] at h
        simp only [Option.some.injEq, Prod.mk.injEq] at h
        obtain ⟨rfl, rfl⟩ := h
        have he : c :: cs = mdClose ++ (c :: cs).drop 9 :=
          eq_append_drop_of_isPrefixOf mdClose (c :: cs) h1
        refine ⟨[']', '('], ?_⟩
        rw [he, capToParen_decomp _ _ _ hc]
        rfl
      | none =>
        rw [hc] at h
        by_cases h2 : c = newlineChar
        · rw [if_pos h2] at h; exact Option.noConfusion h
        · rw [if_neg h2] at h
          obtain ⟨p, hp⟩ := ih cap rest h
          exact ⟨c :: p, by rw [hp]; rfl⟩
    · rw [if_neg h1] at h
      by_cases h2 : c = newlineChar
      · rw [if_pos h2] at h; exact Option.noConfusion h
      · rw [if_neg h2] at h
        obtain ⟨p, hp⟩ := ih cap rest h
        exact ⟨c :: p, by rw [hp]; rfl⟩

theorem mdMatchAt_decomp :
    ∀ s cap rest : List Char, mdMatchAt s = some (cap, rest) →
      ∃ p w, s = p ++ (imagesChars ++ (cap ++ (w ++ rest))) := by
  intro s cap rest h
  rcases s with _ | ⟨a, _ | ⟨b, t⟩⟩
  · simp [mdMatchAt] at h
  · simp [mdMatchAt] at h
  · simp only [mdMatchAt] at h
    by_cases h1 : a = '!' ∧ b = '['
    · rw [if_pos h1] at h
      obtain ⟨rfl, rfl⟩ := h1
      obtain ⟨p, hp⟩ := mdAfterBang_decomp t cap rest h
      refine ⟨'!' :: '[' :: p, [')'], ?_⟩
      rw [hp]
      rfl
    · rw [if_neg h1] at h
      exact Option.noConfusion h

theorem findAllF_decomp
    (matchAt : List Char → Option (List Char × List Char))
    (H : ∀ s cap rest, matchAt s = some (cap, rest) →
      ∃ p w, s = p ++ (imagesChars ++ (cap ++ (w ++ rest)))) :
    ∀ fuel s cap, cap ∈ findAllF matchAt fuel s →
      ∃ p r, s = p ++ (imagesChars ++ (cap ++ r)) := by
  intro fuel
  induction fuel with
  | zero => intro s cap h; simp [findAllF] at h
  | succ fuel ih =>
    intro s cap h
    cases s with
    | nil => simp [findAllF] at h
    | cons c cs =>
      simp only [findAllF] at h
      cases hm : matchAt (c :: cs) with
      | none =>
        rw [hm] at h
        obtain ⟨p, r, hp⟩ := ih cs cap h
        exact ⟨c :: p, r, by rw [hp]; rfl⟩
      | some pr =>
        obtain ⟨cap0, rest⟩ := pr
        rw [hm] at h
        simp only [List.mem_cons] at h
        rcases h with rfl | h2
        · obtain ⟨p, w, hp⟩ := H _ _ _ hm
          exact ⟨p, w ++ rest, hp⟩
        · obtain ⟨p2, r2, hp2⟩ := ih rest cap h2
          obtain ⟨p, w, hp⟩ := H _ _ _ hm
          refine ⟨p ++ (imagesChars ++ (cap0 ++ (w ++ p2))), r2, ?_⟩
          rw [hp, hp2]
          simp [List.append_assoc]

theorem skipToGt_decomp :
    ∀ u rest : List Char, skipToGt u = some rest →
      ∃ m, u = m ++ '>' :: rest := by
  intro u
  induction u with
  | nil => intro rest h; simp [skipToGt] at h
  | cons c cs ih =>
    intro rest h
    simp only [skipToGt] at h
    by_cases h1 : c = '>'
    · rw [if_pos h1] at h
      simp only [Option.some.injEq] at h
      subst h
      exact ⟨[], by simp [h1]⟩
    · rw [if_neg h1] at h
      by_cases h2 : c = newlineChar
      · rw [if_pos h2] at h; exact Option.noConfusion h
      · rw [if_neg h2] at h
        obtain ⟨m, hm⟩ := ih rest h
        exact ⟨c :: m, by simp [hm]⟩

theorem capToQuote_decomp :
    ∀ u cap rest : List Char, capToQuote u = some (cap, rest) →
      ∃ q m, isQuote q ∧ u = cap ++ q :: (m ++ '>' :: rest) := by
  intro u
  induction u with
  | nil => intro cap rest h; simp [capToQuote] at h
  | cons c cs ih =>
    intro cap rest h
    simp only [capToQuote] at h
    by_cases h1 : isQuote c
    · rw [if_pos h1] at h
      cases hs : skipToGt cs with
      | some r0 =>
        rw [hs] at h
        simp only [Option.some.injEq, Prod.mk.injEq] at h
        obtain ⟨rfl, rfl⟩ := h
        obtain ⟨m, hm⟩ := skipToGt_decomp cs r0 hs
        exact ⟨c, m, h1, by simp [hm]⟩
      | none =>
        rw [hs] at h
        by_cases h2 : c = newlineChar
        · rw [if_pos h2] at h; exact Option.noConfusion h
        · rw [if_neg h2] at h
          cases hc : capToQuote cs with
          | none => rw [hc] at h; exact Option.noConfusion h
          | some pr =>
            obtain ⟨cap0, rest0⟩ := pr
            rw [hc] at h
            simp only [Option.some.injEq, Prod.mk.injEq] at h
            obtain ⟨rfl, rfl⟩ := h
            obtain ⟨q, m, hq, hm⟩ := ih cap0 rest0 hc
            exact ⟨q, m, hq, by simp [hm]⟩
    · rw [if_neg h1] at h
      by_cases h2 : c = newlineChar
      · rw [if_pos h2] at h; exact Option.noConfusion h
      · rw [if_neg h2] at h
        cases hc : capToQuote cs with
        | none => rw [hc] at h; exact Option.noConfusion h
        | some pr =>
          obtain ⟨cap0, rest0⟩ := pr
          rw [hc] at h
          simp only [Option.some.injEq, Prod.mk.injEq] at h
          obtain ⟨rfl, rfl⟩ := h
          obtain ⟨q, m, hq, hm⟩ := ih cap0 rest0 hc
          exact ⟨q, m, hq, by simp [hm]⟩

theorem srcAt_decomp :
    ∀ s u : List Char, srcAt s = some u →
      ∃ q, isQuote q ∧
        s = 's' :: 'r' :: 'c' :: '=' :: q :: (imagesChars ++ u) := by
  intro s u h
  rcases s with _ | ⟨c1, _ | ⟨c2, _ | ⟨c3, _ | ⟨c4, _ | ⟨q, rest⟩⟩⟩⟩⟩
  · simp [srcAt] at h
  · simp [srcAt] at h
  · simp [srcAt] at h
  · simp [srcAt] at h
  · simp [srcAt] at h
  · simp only [srcAt] at h
    by_cases h1 : c1 = 's' ∧ c2 = 'r' ∧ c3 = 'c' ∧ c4 = '=' ∧ isQuote q
    · rw [if_pos h1] at h
      obtain ⟨rfl, rfl, rfl, rfl, hq⟩ := h1
      by_cases h2 : imagesChars.isPrefixOf rest = true
      · rw [if_pos h2] at h
        simp only [Option.some.injEq] at h
        subst h
        have he : rest = imagesChars ++ rest.drop 7 :=
          eq_append_drop_of_isPrefixOf imagesChars rest h2
        exact ⟨q, hq, by rw [← he]⟩
      · rw [if_neg h2] at h; exact Option.noConfusion h
    · rw [if_neg h1] at h; exact Option.noConfusion h

theorem htmlAfterTag_decomp :
    ∀ t cap rest : List Char, htmlAfterTag t = some (cap, rest) →
      ∃ p w, t = p ++ (imagesChars ++ (cap ++ (w ++ rest))) := by
  intro t
  induction t with
  | nil => intro cap rest h; simp [htmlAfterTag] at h
  | cons c cs ih =>
    intro cap rest h
    cases hs : srcAt (c :: cs) with
    | some u =>
      simp only [htmlAfterTag, hs] at h
      cases hc : capToQuote u with
      | some pr =>
        obtain ⟨cap0, rest0⟩ := pr
        rw [hc] at h
        simp only [Option.some.injEq, Prod.mk.injEq] at h
        obtain ⟨rfl, rfl⟩ := h
        obtain ⟨q0, hq0, hsrc⟩ := srcAt_decomp (c :: cs) u hs
        obtain ⟨q1, m, hq1, hu⟩ := capToQuote_decomp u cap0 rest0 hc
        refine ⟨['s', 'r', 'c', '=', q0], q1 :: (m ++ ['>']), ?_⟩
        rw [hsrc, hu]
        simp [List.append_assoc]
      | none =>
        rw [hc] at h
        by_cases h2 : c = newlineChar
        · rw [if_pos h2] at h; exact Option.noConfusion h
        · rw [if_neg h2] at h
          obtain ⟨p, w, hp⟩ := ih cap rest h
          exact ⟨c :: p, w, by simp [hp]⟩
    | none =>
      simp only [htmlAfterTag, hs] at h
      by_cases h2 : c = newlineChar
      · rw [if_pos h2] at h; exact Option.noConfusion h
      · rw [if_neg h2] at h
        obtain ⟨p, w, hp⟩ := ih cap rest h
        exact ⟨c :: p, w, by simp [hp]⟩

theorem htmlMatchAt_decomp :
    ∀ s cap rest : List Char, htmlMatchAt s = some (cap, rest) →
      ∃ p w, s = p ++ (imagesChars ++ (cap ++ (w ++ rest))) := by
  intro s cap rest h
  simp only [htmlMatchAt] at h
  by_cases h1 : tagImg.isPrefixOf s = true
  · rw [if_pos h1] at h
    obtain ⟨p, w, hp⟩ := htmlAfterTag_decomp _ cap rest h
    have he : s = tagImg ++ s.drop 4 :=
      eq_append_drop_of_isPrefixOf tagImg s h1
    refine ⟨tagImg ++ p, w, ?_⟩
    rw [List.append_assoc, ← hp]
    exact he
  · rw [if_neg h1] at h
    by_cases h2 : tagVideo.isPrefixOf s = true
    · rw [if_pos h2] at h
      obtain ⟨p, w, hp⟩ := htmlAfterTag_decomp _ cap rest h
      have he : s = tagVideo ++ s.drop 6 :=
        eq_append_drop_of_isPrefixOf tagVideo s h2
      refine ⟨tagVideo ++ p, w, ?_⟩
      rw [List.append_assoc, ← hp]
      exact he
    · rw [if_neg h2] at h
      by_cases h3 : tagAudio.isPrefixOf s = true
      · rw [if_pos h3] at h
        obtain ⟨p, w, hp⟩ := htmlAfterTag_decomp _ cap rest h
        have he : s = tagAudio ++ s.drop 6 :=
          eq_append_drop_of_isPrefixOf tagAudio s h3
        refine ⟨tagAudio ++ p, w, ?_⟩
        rw [List.append_assoc, ← hp]
        exact he
      · rw [if_neg h3] at h
        by_cases h4 : tagSource.isPrefixOf s = true
        · rw [if_pos h4] at h
          obtain ⟨p, w, hp⟩ := htmlAfterTag_decomp _ cap rest h
          have he : s = tagSource ++ s.drop 7 :=
            eq_append_drop_of_isPrefixOf tagSource s h4
          refine ⟨tagSource ++ p, w, ?_⟩
          rw [List.append_assoc, ← hp]
          exact he
        · rw [if_neg h4] at h
          exact Option.noConfusion h

/-- C2 (counterexample): on the document `![a](images/images/x.png)` the
extractor returns the name `images/x.png`, which does contain the literal
prefix `images/`: the prefix is stripped only at the match site, not from
the captured text. -/
theorem C2_counterexample :
    "images/x.png" ∈ extract_media_references "![a](images/images/x.png)" ∧
      "images/x.png" = "images/" ++ "x.png" :=
  ⟨by decide, rfl⟩

/-- C2 (amended): every name returned by the extractor is taken from the
text immediately after a literal `images/` occurrence (the prefix at the
match site is stripped from the returned name), but the returned name may
itself contain `images/` again when the captured path repeats that
segment. -/
theorem C2_amended_prefix_stripped_at_site (text name : String)
    (h : name ∈ extract_media_references text) :
    OccursAfterImages text name := by
  simp only [extract_media_references, List.mem_toFinset, List.mem_map,
    List.mem_append] at h
  obtain ⟨cap, hcap, rfl⟩ := h
  rcases hcap with hmd | hhtml
  · obtain ⟨p, r, hp⟩ :=
      findAllF_decomp mdMatchAt mdMatchAt_decomp _ _ _ hmd
    exact ⟨p, r, hp⟩
  · obtain ⟨p, r, hp⟩ :=
      findAllF_decomp htmlMatchAt htmlMatchAt_decomp _ _ _ hhtml
    exact ⟨p, r, hp⟩

/-- C2 (witness for the amended theorem at a concrete input). -/
theorem C2_amended_witness :
    OccursAfterImages "![a](images/pic.png)" "pic.png" :=
  C2_amended_prefix_stripped_at_site "![a](images/pic.png)" "pic.png"
    (by decide)

theorem mk_toList (s : String) : String.mk s.toList = s := rfl

theorem toList_append (a b : String) :
    (a ++ b).toList = a.toList ++ b.toList := rfl

theorem mdClose_isPrefixOf_cons (b : Char) (s : List Char) (h : b ≠ ']') :
    mdClose.isPrefixOf (b :: s) = false := by
  have hb : ((']' : Char) == b) = false :=
    beq_eq_false_iff_ne.mpr (fun hh => h hh.symm)
  simp [mdClose, List.isPrefixOf, hb]

theorem capToParen_complete :
    ∀ name rest : List Char, ')' ∉ name → newlineChar ∉ name →
      capToParen (name ++ ')' :: rest) = some (name, rest) := by
  intro name
  induction name with
  | nil => intro rest _ _; simp [capToParen]
  | cons c cs ih =>
    intro rest h1 h2
    simp only [List.mem_cons, not_or] at h1 h2
    simp only [List.cons_append, capToParen, List.append_eq]
    rw [if_neg (fun hc => h1.1 hc.symm), if_neg (fun hc => h2.1 hc.symm),
      ih rest h1.2 h2.2]

theorem mdAfterBang_complete :
    ∀ alt u cap rest : List Char, ']' ∉ alt → newlineChar ∉ alt →
      capToParen u = some (cap, rest) →
      mdAfterBang (alt ++ (mdClose ++ u)) = some (cap, rest) := by
  intro alt
  induction alt with
  | nil =>
    intro u cap rest _ _ hc
    simp [mdAfterBang, mdClose, imagesChars, List.isPrefixOf, hc]
  | cons a alt ih =>
    intro u cap rest h1 h2 hc
    simp only [List.mem_cons, not_or] at h1 h2
    simp only [List.cons_append, mdAfterBang]
    rw [mdClose_isPrefixOf_cons a _ (fun hx => h1.1 hx.symm)]
    simp only [Bool.false_eq_true, if_false]
    rw [if_neg (fun hx => h2.1 hx.symm)]
    exact ih u cap rest h1.2 h2.2 hc

theorem mdMatchAt_bang (t : List Char) :
    mdMatchAt ('!' :: '[' :: t) = mdAfterBang t := by
  simp [mdMatchAt]

theorem mem_findAll_of_matchAt_head
    (matchAt : List Char → Option (List Char × List Char))
    (c : Char) (cs cap rest : List Char)
    (h : matchAt (c :: cs) = some (cap, rest)) :
    cap ∈ findAll matchAt (c :: cs) := by
  simp [findAll, findAllF, h]

theorem mem_extract_of_mem_md (text : String) (cap : List Char)
    (h : cap ∈ findAll mdMatchAt text.toList) :
    String.mk cap ∈ extract_media_references text := by
  simp only [extract_media_references, List.mem_toFinset, List.mem_map]
  exact ⟨cap, List.mem_append.mpr (Or.inl h), rfl⟩

theorem mem_extract_of_mem_html (text : String) (cap : List Char)
    (h : cap ∈ findAll htmlMatchAt text.toList) :
    String.mk cap ∈ extract_media_references text := by
  simp only [extract_media_references, List.mem_toFinset, List.mem_map]
  exact ⟨cap, List.mem_append.mpr (Or.inr h), rfl⟩

/-- C7: the extractor matches the Markdown image form with the name
captured non-greedily up to the closing parenthesis: any document of the
shape `![alt](images/name)` — with no closing bracket or newline inside
the alt text and no closing parenthesis or newline inside the name — puts
the name, verbatim, in the returned set; and a reference with nested path
segments that occurs twice in a document yields exactly the one verbatim
entry. -/
theorem C7_markdown_form_extracted (alt name : String)
    (ha1 : ']' ∉ alt.toList) (ha2 : newlineChar ∉ alt.toList)
    (hn1 : ')' ∉ name.toList) (hn2 : newlineChar ∉ name.toList) :
    name ∈ extract_media_references
      ("![" ++ alt ++ "](images/" ++ name ++ ")") ∧
    extract_media_references
      "![a](images/sub/file.png) and ![b](images/sub/file.png)" =
      {"sub/file.png"} := by
  refine ⟨?_, by decide⟩
  have hcap : capToParen (name.toList ++ ')' :: []) = some (name.toList, []) :=
    capToParen_complete name.toList [] hn1 hn2
  have hmb := mdAfterBang_complete alt.toList _ _ _ ha1 ha2 hcap
  have hmm :
      mdMatchAt
        ('!' :: '[' ::
          (alt.toList ++ (mdClose ++ (name.toList ++ ')' :: [])))) =
      some (name.toList, []) := by
    rw [mdMatchAt_bang]
    exact hmb
  have htext : ("![" ++ alt ++ "](images/" ++ name ++ ")").toList =
      '!' :: '[' ::
        (alt.toList ++ (mdClose ++ (name.toList ++ ')' :: []))) := by
    rw [toList_append, toList_append, toList_append, toList_append]
    have e1 : ("![" : String).toList = ['!', '['] := rfl
    have e2 : ("](images/" : String).toList = mdClose := rfl
    have e3 : (")" : String).toList = [')'] := rfl
    rw [e1, e2, e3]
    simp [List.append_assoc]
  have hm := mem_findAll_of_matchAt_head mdMatchAt _ _ _ _ hmm
  have h2 := mem_extract_of_mem_md ("![" ++ alt ++ "](images/" ++ name ++ ")")
    name.toList (by rw [htext]; exact hm)
  rw [mk_toList] at h2
  exact h2

/-- C7 (witness at a concrete input). -/
theorem C7_witness :
    "pic.png" ∈ extract_media_references "![alt text](images/pic.png)" ∧
    extract_media_references
      "![a](images/sub/file.png) and ![b](images/sub/file.png)" =
      {"sub/file.png"} :=
  C7_markdown_form_extracted "alt text" "pic.png" (by decide) (by decide)
    (by decide) (by decide)

theorem skipToGt_complete :
    ∀ w v : List Char, newlineChar ∉ w →
      ∃ r, skipToGt (w ++ '>' :: v) = some r := by
  intro w
  induction w with
  | nil => intro v _; exact ⟨v, by simp [skipToGt]⟩
  | cons c cs ih =>
    intro v h
    simp only [List.mem_cons, not_or] at h
    by_cases h1 : c = '>'
    · exact ⟨cs ++ '>' :: v, by simp [skipToGt, h1]⟩
    · obtain ⟨r, hr⟩ := ih v h.2
      refine ⟨r, ?_⟩
      simp only [List.cons_append, skipToGt]
      rw [if_neg h1, if_neg (fun hx => h.1 hx.symm)]
      exact hr

theorem capToQuote_complete :
    ∀ (name : List Char) (q : Char) (u r : List Char),
      (∀ c ∈ name, ¬isQuote c) → newlineChar ∉ name → isQuote q →
      skipToGt u = some r →
      capToQuote (name ++ q :: u) = some (name, r) := by
  intro name
  induction name with
  | nil =>
    intro q u r _ _ hq hs
    simp only [List.nil_append, capToQuote]
    rw [if_pos hq, hs]
  | cons c cs ih =>
    intro q u r hnq hnn hq hs
    simp only [List.mem_cons, not_or] at hnn
    have hcq : ¬isQuote c := hnq c (List.mem_cons_self c cs)
    simp only [List.cons_append, capToQuote, List.append_eq]
    rw [if_neg hcq, if_neg (fun hx => hnn.1 hx.symm),
      ih q u r (fun x hx => hnq x (List.mem_cons_of_mem c hx)) hnn.2 hq hs]

theorem srcAt_images (q : Char) (v : List Char) (hq : isQuote q) :
    srcAt ('s' :: 'r' :: 'c' :: '=' :: q :: (imagesChars ++ v)) = some v := by
  simp only [srcAt]
  rw [if_pos (by simp [hq]),
    if_pos (isPrefixOf_append_left imagesChars v)]
  rfl

theorem htmlAfterTag_space_src (q : Char) (v cap r : List Char)
    (hq : isQuote q) (hc : capToQuote v = some (cap, r)) :
    htmlAfterTag
      (' ' :: 's' :: 'r' :: 'c' :: '=' :: q :: (imagesChars ++ v)) =
      some (cap, r) := by
  have h0 :
      srcAt (' ' :: 's' :: 'r' :: 'c' :: '=' :: q :: (imagesChars ++ v)) =
        none := by
    simp only [srcAt]
    rw [if_neg (fun hcon => absurd hcon.1 (by decide))]
  simp only [htmlAfterTag, h0]
  rw [if_neg (by decide : ¬(' ' = newlineChar))]
  have h1 := srcAt_images q v hq
  simp only [htmlAfterTag, h1, hc]

theorem htmlMatchAt_img (rest0 : List Char) :
    htmlMatchAt (tagImg ++ rest0) = htmlAfterTag rest0 := by
  simp only [htmlMatchAt]
  rw [if_pos (isPrefixOf_append_left tagImg rest0)]
  rfl

theorem htmlMatchAt_video (rest0 : List Char) :
    htmlMatchAt (tagVideo ++ rest0) = htmlAfterTag rest0 := by
  have h1 : tagImg.isPrefixOf (tagVideo ++ rest0) = false := by
    have hiv : (('i' : Char) == 'v') = false := by decide
    simp [tagImg, tagVideo, List.isPrefixOf, hiv]
  simp only [htmlMatchAt, h1, Bool.false_eq_true, if_false]
  rw [if_pos (isPrefixOf_append_left tagVideo rest0)]
  rfl

theorem htmlMatchAt_audio (rest0 : List Char) :
    htmlMatchAt (tagAudio ++ rest0) = htmlAfterTag rest0 := by
  have h1 : tagImg.isPrefixOf (tagAudio ++ rest0) = false := by
    have hia : (('i' : Char) == 'a') = false := by decide
    simp [tagImg, tagAudio, List.isPrefixOf, hia]
  have h2 : tagVideo.isPrefixOf (tagAudio ++ rest0) = false := by
    have hva : (('v' : Char) == 'a') = false := by decide
    simp [tagVideo, tagAudio, List.isPrefixOf, hva]
  simp only [htmlMatchAt, h1, h2, Bool.false_eq_true, if_false]
  rw [if_pos (isPrefixOf_append_left tagAudio rest0)]
  rfl

theorem htmlMatchAt_source (rest0 : List Char) :
    htmlMatchAt (tagSource ++ rest0) = htmlAfterTag rest0 := by
  have h1 : tagImg.isPrefixOf (tagSource ++ rest0) = false := by
    have his : (('i' : Char) == 's') = false := by decide
    simp [tagImg, tagSource, List.isPrefixOf, his]
  have h2 : tagVideo.isPrefixOf (tagSource ++ rest0) = false := by
    have hvs : (('v' : Char) == 's') = false := by decide
    simp [tagVideo, tagSource, List.isPrefixOf, hvs]
  have h3 : tagAudio.isPrefixOf (tagSource ++ rest0) = false := by
    have has : (('a' : Char) == 's') = false := by decide
    simp [tagAudio, tagSource, List.isPrefixOf, has]
  simp only [htmlMatchAt, h1, h2, h3, Bool.false_eq_true, if_false]
  rw [if_pos (isPrefixOf_append_left tagSource rest0)]
  rfl

theorem C3_tag_helper (tagStr : String)
    (hstep : ∀ rest0 : List Char,
      htmlMatchAt ('<' :: (tagStr.toList ++ rest0)) = htmlAfterTag rest0)
    (q : Char) (hq : isQuote q) (name attrs : String)
    (hn1 : ∀ c ∈ name.toList, ¬isQuote c) (hn2 : newlineChar ∉ name.toList)
    (hat : newlineChar ∉ attrs.toList) :
    name ∈ extract_media_references
      ("<" ++ tagStr ++ " src=" ++ String.mk [q] ++ "images/" ++ name ++
        String.mk [q] ++ attrs ++ ">") := by
  obtain ⟨r, hr⟩ := skipToGt_complete attrs.toList [] hat
  have hcq :=
    capToQuote_complete name.toList q (attrs.toList ++ '>' :: []) r hn1 hn2
      hq hr
  have hat2 :=
    htmlAfterTag_space_src q
      (name.toList ++ q :: (attrs.toList ++ '>' :: [])) name.toList r hq hcq
  have htext : ("<" ++ tagStr ++ " src=" ++ String.mk [q] ++ "images/" ++
      name ++ String.mk [q] ++ attrs ++ ">").toList =
      '<' :: (tagStr.toList ++ (' ' :: 's' :: 'r' :: 'c' :: '=' :: q ::
        (imagesChars ++ (name.toList ++ q :: (attrs.toList ++ '>' :: []))))) := by
    simp only [toList_append]
    have e0 : ("<" : String).toList = ['<'] := rfl
    have e1 : (" src=" : String).toList = [' ', 's', 'r', 'c', '='] := rfl
    have e2 : ("images/" : String).toList = imagesChars := rfl
    have e3 : (">" : String).toList = ['>'] := rfl
    have e4 : (String.mk [q]).toList = [q] := rfl
    rw [e0, e1, e2, e3, e4]
    simp [List.append_assoc]
  have hmatch : htmlMatchAt
      ('<' :: (tagStr.toList ++ (' ' :: 's' :: 'r' :: 'c' :: '=' :: q ::
        (imagesChars ++
          (name.toList ++ q :: (attrs.toList ++ '>' :: [])))))) =
      some (name.toList, r) := by
    rw [hstep]
    exact hat2
  have hm := mem_findAll_of_matchAt_head htmlMatchAt '<' _ _ _ hmatch
  have hfin := mem_extract_of_mem_html
    ("<" ++ tagStr ++ " src=" ++ String.mk [q] ++ "images/" ++ name ++
      String.mk [q] ++ attrs ++ ">") name.toList (by rw [htext]; exact hm)
  rw [mk_toList] at hfin
  exact hfin

/-- C3 (counterexample): the closing character class of the HTML pattern
accepts either quote kind, so the capture stops at the first quote
character rather than the one matching the opening quote: on
`<img src="images/a\x27b.png">` the extractor returns the set holding only
`a`, and the name up to the matching double quote, `a\x27b.png`, is not
returned. -/
theorem C3_counterexample :
    extract_media_references
      ("<img src=\"images/a" ++ String.mk [squote] ++ "b.png\">") =
      {"a"} ∧
    ("a" ++ String.mk [squote] ++ "b.png") ∉ extract_media_references
      ("<img src=\"images/a" ++ String.mk [squote] ++ "b.png\">") :=
  ⟨by decide, by decide⟩

/-- C3 (amended): the extractor matches HTML tags whose name is one of
`img`, `video`, `audio`, `source` with a `src` attribute value starting
with `images/` in either single or double quotes, capturing the name up to
the first following quote character of either kind — which is the matching
quote whenever the name contains no quote character; in particular,
`clip.mp4` is extracted from
`<video src="images/clip.mp4" controls></video>`. -/
theorem C3_amended_html_extraction (tag : String)
    (htag : tag = "img" ∨ tag = "video" ∨ tag = "audio" ∨ tag = "source")
    (q : Char) (hq : isQuote q) (name attrs : String)
    (hn1 : ∀ c ∈ name.toList, ¬isQuote c) (hn2 : newlineChar ∉ name.toList)
    (hat : newlineChar ∉ attrs.toList) :
    name ∈ extract_media_references
      ("<" ++ tag ++ " src=" ++ String.mk [q] ++ "images/" ++ name ++
        String.mk [q] ++ attrs ++ ">") ∧
    "clip.mp4" ∈ extract_media_references
      "<video src=\"images/clip.mp4\" controls></video>" := by
  refine ⟨?_, by decide⟩
  rcases htag with rfl | rfl | rfl | rfl
  · exact C3_tag_helper "img" (fun rest0 => htmlMatchAt_img rest0)
      q hq name attrs hn1 hn2 hat
  · exact C3_tag_helper "video" (fun rest0 => htmlMatchAt_video rest0)
      q hq name attrs hn1 hn2 hat
  · exact C3_tag_helper "audio" (fun rest0 => htmlMatchAt_audio rest0)
      q hq name attrs hn1 hn2 hat
  · exact C3_tag_helper "source" (fun rest0 => htmlMatchAt_source rest0)
      q hq name attrs hn1 hn2 hat

/-- C3 (witness for the amended theorem at the concrete scenario input). -/
theorem C3_witness :
    "clip.mp4" ∈ extract_media_references
      ("<" ++ "video" ++ " src=" ++ String.mk ['"'] ++ "images/" ++
        "clip.mp4" ++ String.mk ['"'] ++ " controls" ++ ">") ∧
    "clip.mp4" ∈ extract_media_references
      "<video src=\"images/clip.mp4\" controls></video>" :=
  C3_amended_html_extraction "video" (Or.inr (Or.inl rfl)) '"'
    (Or.inl rfl) "clip.mp4" " controls" (by decide) (by decide) (by decide)

end RemoveImages
